import Mathlib

/-!
# MicroTPCT core — shallow embedding and verification

This file embeds the core matching logic of the MicroTPCT repository in
Lean 4 and proves/refutes the frozen specification claims about it.

Conventions of the embedding:
* Python `str` values are modelled as `List Char` (sequences) or `String`
  (identifiers), Python `int` as `Nat` where the source only ever holds
  non-negative values.
* Python `dict` (insertion-ordered) is modelled as an association list;
  `defaultdict(list)`-style appends and plain-`dict` overwrites each get
  a dedicated operation (`dictAppend`, `dictInsert`).
* Fallible code is modelled with `Except String`.
* Sources: `src/microtpct/io/converters.py`, `src/microtpct/core/databases.py`,
  `src/microtpct/core/results.py`, `src/microtpct/core/match_ahocorasick.py`,
  `src/microtpct/core/match_find.py`,
  `src/microtpct/core/match/wildcards_matcher.py`,
  `src/microtpct/core/pipeline.py`, `src/microtpct/io/writers.py`.
-/

namespace MicroTPCT

/-! ## Sequence normalization (`io/converters.py`) -/

/-- `il_to_j` from `io/converters.py`:
`sequence.replace("I", "J").replace("L", "J")`.
With single-character arguments, Python `str.replace` is a per-character map,
applied left to right: first every `I` becomes `J`, then every `L` becomes `J`. -/
def il_to_j (sequence : List Char) : List Char :=
  (sequence.map (fun c => if c = 'I' then 'J' else c)).map
    (fun c => if c = 'L' then 'J' else c)

/-- The one-pass description used by the spec: every `I` and every `L`
replaced by `J`. -/
def ilCollapse (sequence : List Char) : List Char :=
  sequence.map (fun c => if c = 'I' ∨ c = 'L' then 'J' else c)

/-! ## Internal ID generation (`io/converters.py`, `generate_ids`) -/

/-- Decimal representation of a natural number, most significant digit first:
the character sequence Python's `str(m)` / `f"{m:d}"` produces. -/
def decRepr (m : Nat) : List Char :=
  if m = 0 then ['0'] else ((Nat.digits 10 m).map Nat.digitChar).reverse

/-- Left zero-padding to width `w`: Python's `f"{m:0{w}d}"` applied to the
bare decimal representation `s`. -/
def zeroPad (w : Nat) (s : List Char) : List Char :=
  List.replicate (w - s.length) '0' ++ s

/-- `generate_ids` from `io/converters.py`:
`width = max(6, len(str(n)))`, ids `f"{prefix}{i+1:0{width}d}"` for
`i in range(n)`. -/
def generate_ids (pre : String) (n : Nat) : List String :=
  (List.range n).map
    (fun i => pre ++ String.mk (zeroPad (max 6 (decRepr n).length) (decRepr (i + 1))))

/-! ## Sequence databases (`core/databases.py`, `io/converters.py`) -/

/-- `SequenceDB` from `core/databases.py`: four parallel arrays.
`TargetDB` and `QueryDB` subclass it without adding fields. -/
structure SequenceDB where
  ids : List String
  sequences : List (List Char)
  ambiguous_il_sequences : List (List Char)
  accessions : List String

/-- `SequenceDB.size`: `len(self.sequences)`. -/
def SequenceDB.size (db : SequenceDB) : Nat := db.sequences.length

/-- Constructing a `SequenceDB`: the dataclass `__post_init__` raises
`ValueError("All fields must have the same length")` unless
`len(ids) == len(accessions) == len(ambiguous_il_sequences) == len(sequences)`. -/
def mkSequenceDB (ids : List String) (sequences ambiguous_il_sequences : List (List Char))
    (accessions : List String) : Except String SequenceDB :=
  if ids.length = accessions.length ∧ accessions.length = ambiguous_il_sequences.length ∧
      ambiguous_il_sequences.length = sequences.length then
    .ok ⟨ids, sequences, ambiguous_il_sequences, accessions⟩
  else
    .error "All fields must have the same length"

/-- `SequenceRole` from `io/readers.py` (the two roles used by
`build_database`). -/
inductive SequenceRole | target | query
deriving DecidableEq

/-- ID prefix chosen by `build_database`: `"T"` for targets, `"Q"` for
queries. -/
def rolePrefix : SequenceRole → String
  | .target => "T"
  | .query => "Q"

/-- `build_database` from `io/converters.py`. Inputs are the validated
`(accession, sequence)` records, in order; the function accumulates the
original sequences, their `il_to_j` images and the accessions, generates the
IDs with `generate_ids`, and constructs the `SequenceDB` (whose
`__post_init__` length check passes by construction, all four lists having
length `len(inputs)`). -/
def build_database (inputs : List (String × List Char)) (role : SequenceRole) :
    SequenceDB :=
  let sequences := inputs.map (fun obj => obj.2)
  let ambiguous := inputs.map (fun obj => il_to_j obj.2)
  let accessions := inputs.map (fun obj => obj.1)
  let n := sequences.length
  { ids := generate_ids (rolePrefix role) n
    sequences := sequences
    ambiguous_il_sequences := ambiguous
    accessions := accessions }

/-! ## Matches and results (`core/results.py`) -/

/-- `Match` from `core/results.py`: frozen dataclass
`(query_id, target_id, position)`. -/
structure Match where
  query_id : String
  target_id : String
  position : Nat
deriving DecidableEq

/-- `MatchResult` from `core/results.py`: the flat ordered list of matches
(the lazily cached `by_query` / `by_target` indices are derived data and are
modelled as the functions below). The Python attribute is called `matches`;
that word is a Lean keyword, so the field is named `matchList`. -/
structure MatchResult where
  matchList : List Match

/-- `MatchResult.by_query`: insertion-ordered grouping of matches by
`query_id`, modelled as the list of matches for a given query id (the dict
value that `by_query()[qid]` holds). -/
def MatchResult.matches_for_query (r : MatchResult) (qid : String) : List Match :=
  r.matchList.filter (fun m => m.query_id = qid)

/-- `MatchResult.matches_for_target`, likewise. -/
def MatchResult.matches_for_target (r : MatchResult) (tid : String) : List Match :=
  r.matchList.filter (fun m => m.target_id = tid)

/-- Keys of `by_query()`: the distinct query ids among the matches, in first
occurrence order (Python dict key order). -/
def MatchResult.queryKeys (r : MatchResult) : List String :=
  (r.matchList.map (fun m => m.query_id)).dedup

/-- Keys of `by_target()`. -/
def MatchResult.targetKeys (r : MatchResult) : List String :=
  (r.matchList.map (fun m => m.target_id)).dedup

/-- `MatchResult.n_unique_queries`: `len(self.by_query())`. -/
def MatchResult.n_unique_queries (r : MatchResult) : Nat := r.queryKeys.length

/-- `MatchResult.n_unique_targets`: `len(self.by_target())`. -/
def MatchResult.n_unique_targets (r : MatchResult) : Nat := r.targetKeys.length

/-- `MatchResult.n_matches_for_query`. -/
def MatchResult.n_matches_for_query (r : MatchResult) (qid : String) : Nat :=
  (r.matches_for_query qid).length

/-! ## Occurrence predicate

`occursAt q t j` states that pattern `q` occurs in text `t` at 0-based
offset `j` (the sense in which the spec says "the query's normalized
sequence occurs in the target's normalized sequence at offset start"). -/

def occursAt (q t : List Char) (j : Nat) : Prop :=
  j + q.length ≤ t.length ∧ (t.drop j).take q.length = q

instance (q t : List Char) (j : Nat) : Decidable (occursAt q t j) := by
  unfold occursAt; infer_instance

/-! ## Exact multi-pattern engine (`core/match_ahocorasick.py`)

`run_ahocorasick` builds a `pyahocorasick` automaton with
`A.add_word(seq, (q_id, seq))` for every query and scans each target with
`A.iter(t_seq)`.  The library is modelled by its documented semantics:

* the automaton is a dict-like trie keyed by the pattern string —
  `add_word` with an already-present key replaces the stored value (so of
  several queries sharing one normalized sequence only the last survives),
  and an empty key is not inserted;
* after `make_automaton()`, `A.iter(haystack)` yields `(end_index, value)`
  for every occurrence of every stored key in the haystack, scanning end
  positions left to right. -/

/-- Insert into an insertion-ordered dict (association list): an existing
key keeps its position and gets the new value, a new key is appended. -/
def dictInsert {α β : Type} [DecidableEq α] (d : List (α × β)) (k : α) (v : β) :
    List (α × β) :=
  if d.any (fun p => p.1 = k) then
    d.map (fun p => if p.1 = k then (k, v) else p)
  else d ++ [(k, v)]

/-- `_build_automaton` from `core/match_ahocorasick.py`: add every
`(q_id, q_seq)` pair, keyed by `q_seq`, value `(q_id, q_seq)` (the value's
sequence component always equals the key, so only the id is stored here). -/
def build_automaton (queries : List (String × List Char)) : List (List Char × String) :=
  queries.foldl
    (fun d q => if q.2 = [] then d else dictInsert d q.2 q.1) []

/-- Pattern `pat` has an occurrence ending at haystack index `e`. -/
def occursEndingAt (pat t : List Char) (e : Nat) : Prop :=
  pat.length ≤ e + 1 ∧ occursAt pat t (e + 1 - pat.length)

instance (pat t : List Char) (e : Nat) : Decidable (occursEndingAt pat t e) := by
  unfold occursEndingAt; infer_instance

/-- `automaton.iter(t_seq)`: for each end position in scan order, every
stored pattern with an occurrence ending there, as `(end_index, q_id, key)`
triples. -/
def ahoIter (d : List (List Char × String)) (t : List Char) :
    List (Nat × String × List Char) :=
  (List.range t.length).flatMap
    (fun e => (d.filter (fun p => decide (occursEndingAt p.1 t e))).map
      (fun p => (e, p.2, p.1)))

/-- `run_ahocorasick` from `core/match_ahocorasick.py`: scan each target's
`ambiguous_il_sequence`, and for every hit emit
`Match(q_id, t_id, end_idx - len(q_seq) + 1)`. -/
def run_ahocorasick (target_db query_db : SequenceDB) : MatchResult :=
  let automaton := build_automaton (query_db.ids.zip query_db.ambiguous_il_sequences)
  ⟨(target_db.ids.zip target_db.ambiguous_il_sequences).flatMap
    (fun tp => (ahoIter automaton tp.2).map
      (fun hit => ⟨hit.2.1, tp.1, hit.1 + 1 - hit.2.2.length⟩))⟩

/-! ### Characterization of the automaton and of `run_ahocorasick` -/

/-! ## Naive engine (`core/match_find.py`)

`match_peptoprot_find` scans every record of the proteome; for each peptide
it repeatedly calls `seq.find(pep, start)` and restarts one past each hit,
so overlapping occurrences are all found.  Python's `str.find(sub, start)`
returns the smallest index `j ≥ start` at which `sub` occurs, else `-1`
(modelled as `none`). -/

/-- `seq.find(pep, start)`: the smallest index `j >= start` at which `pep`
occurs in `seq`, else `none` (Python returns `-1`). -/
def strFind (seq pep : List Char) (start : Nat) : Option Nat :=
  (List.range' start (seq.length + 1 - start)).find? (fun j => decide (occursAt pep seq j))

/-- The `while True` loop of `match_peptoprot_find` for one (record,
peptide) pair: emit each found position, restart the search one past it. -/
def findAllFrom (seq pep : List Char) (start : Nat) : List Nat :=
  match h : strFind seq pep start with
  | none => []
  | some j => j :: findAllFrom seq pep (j + 1)
termination_by seq.length + 1 - start
decreasing_by
  have hmem := List.mem_of_find?_eq_some h
  rw [List.mem_range'_1] at hmem
  omega

/-- `match_peptoprot_find` from `core/match_find.py`, abstracted over the
already-parsed proteome records `(record.id, sequence)`: for each record,
for each peptide, every occurrence found by the `find`/`start + 1` loop,
emitted as `(record.id, pep, start)` triples. -/
def match_peptoprot_find (peptides : List (List Char))
    (proteome : List (String × List Char)) : List (String × List Char × Nat) :=
  proteome.flatMap (fun rec => peptides.flatMap
    (fun pep => (findAllFrom rec.2 pep 0).map (fun j => (rec.1, pep, j))))

/-! ## Wildcard engine (`core/match/wildcards_matcher.py`) -/

/-- `defaultdict(list)` append: `d[k].append(v)`.  An existing key keeps its
position and gets the value appended; a new key is appended with a
singleton list. -/
def dictAppend {α β : Type} [DecidableEq α] (d : List (α × List β)) (k : α) (v : β) :
    List (α × List β) :=
  if d.any (fun p => p.1 = k) then
    d.map (fun p => if p.1 = k then (p.1, p.2 ++ [v]) else p)
  else d ++ [(k, [v])]

/-- All `(key, element)` pairs held by a `defaultdict(list)`, one per element
of each value list. -/
def dictEntries {α β : Type} (d : List (α × List β)) : List (α × β) :=
  d.flatMap (fun p => p.2.map (fun v => (p.1, v)))

/-- `get_peptide_dict` from `wildcards_matcher.py`: peptide-length dict
`{len: [(QueryID, Sequence), ...]}` built by appending each query in order. -/
def get_peptide_dict (queries : List (String × List Char)) :
    List (Nat × List (String × List Char)) :=
  queries.foldl (fun d q => dictAppend d q.2.length q) []

/-- The window starts enumerated for a wildcard at index `i`, pattern length
`k`, sequence length `n`: Python `range(max(0, i - k + 1), min(i + 1, n - k + 1))`
(truncated `Nat` subtraction gives exactly the `max(0, ·)` clamping). -/
def wildcardWindowStarts (i k n : Nat) : List Nat :=
  List.range' (i + 1 - k) (min (i + 1) (n + 1 - k) - (i + 1 - k))

/-- `compute_kmers_for_wildcards` from `wildcards_matcher.py`, restricted to
one pattern length `k` (the Python builds the per-length dicts for all
lengths in a single pass over the sequence; each per-length dict's content
only depends on its own `k`): for each wildcard position `i` in scan order,
append start `j` under key `sequence[j:j+k]` for every enumerated window
start. -/
def compute_kmers_for_wildcards (sequence : List Char) (k : Nat) (wildcards : List Char) :
    List (List Char × List Nat) :=
  (List.range sequence.length).foldl
    (fun d i =>
      if sequence.getD i ' ' ∈ wildcards then
        (wildcardWindowStarts i k sequence.length).foldl
          (fun d j => dictAppend d ((sequence.drop j).take k) j) d
      else d) []

/-- `match_with_wildcards` from `wildcards_matcher.py`:
`for p, t in zip(pattern, target): if p not in wildcards and p != t: return False`.
Note the call site passes the target window as `pattern` and the peptide as
`target`, so the wildcard test is applied to the target window characters. -/
def match_with_wildcards (pattern target : List Char) (wildcards : List Char) : Bool :=
  (pattern.zip target).all (fun pt => pt.1 ∈ wildcards || pt.1 = pt.2)

/-- `run_wildcard_match` from `wildcards_matcher.py`: for each target, build
the per-length k-mer tables, then for each peptide length, each peptide of
that length and each stored k-mer matching it, emit one `Match` per stored
position of that k-mer. -/
def run_wildcard_match (target_db query_db : SequenceDB) (wildcards : List Char) :
    MatchResult :=
  let query_length_dict := get_peptide_dict (query_db.ids.zip query_db.ambiguous_il_sequences)
  ⟨(target_db.ids.zip target_db.ambiguous_il_sequences).flatMap (fun tp =>
    query_length_dict.flatMap (fun kl =>
      kl.2.flatMap (fun pep =>
        (compute_kmers_for_wildcards tp.2 kl.1 wildcards).flatMap (fun kp =>
          if match_with_wildcards kp.1 pep.2 wildcards then
            kp.2.map (fun pos => ⟨pep.1, tp.1, pos⟩)
          else []))))⟩

/-! ## Validation (`io/validators.py`) -/

/-- `AMINO_ACIDS` from `io/validators.py`:
`set("GPAVLIMCFYWHKRQNEDST") | set("OU")`. -/
def AMINO_ACIDS : List Char := "GPAVLIMCFYWHKRQNEDSTOU".toList

/-- `validates_wildcards`: a wildcard overlapping the amino-acid alphabet is
a `ValueError`. -/
def validates_wildcards (wildcards : List Char) : Except String Unit :=
  if wildcards.any (fun c => c ∈ AMINO_ACIDS) then
    .error "Invalid wildcard(s) found: overlap with standard amino acids."
  else .ok ()

/-- Target-side validation (`validate_protein_input` /
`_validate_amino_acid_sequence`): empty sequence or empty accession is a
`ValueError`; characters outside `AMINO_ACIDS` (after `upper()`) are allowed
only if they are all wildcards, in which case the target is flagged as
wildcard-bearing (`True`). -/
def validate_target_input (accession : String) (sequence : List Char)
    (wildcards : List Char) : Except String Bool :=
  if sequence = [] then .error "SequenceInput.sequence cannot be empty."
  else if accession = "" then .error "ProteinInput.accession cannot be empty."
  else
    let invalid := (sequence.map Char.toUpper).filter (fun c => c ∉ AMINO_ACIDS)
    if invalid = [] then .ok false
    else if invalid.all (fun c => c ∈ wildcards) then .ok true
    else .error "Invalid amino acids found"

/-- Query-side validation (`validate_peptide_input`): like targets but with
no wildcard allowance. -/
def validate_query_input (accession : String) (sequence : List Char) :
    Except String Unit :=
  if sequence = [] then .error "SequenceInput.sequence cannot be empty."
  else if accession = "" then .error "PeptideInput.accession cannot be empty."
  else if ((sequence.map Char.toUpper).filter (fun c => c ∉ AMINO_ACIDS)) = [] then .ok ()
  else .error "Invalid amino acids found"

/-! ## Orchestrator (`core/pipeline.py`, `run_pipeline`, matching phase)

The model covers `run_pipeline` from the wildcard/validation block down to
the `write_outputs` call (the part the spec describes as the orchestrator;
file reading and output writing are external I/O).  The `result_wildcard`
keyword argument at the `write_outputs` call site is
`result_wildcard_matching if effective_allow_wildcard else None`; the name
`result_wildcard_matching` is only ever assigned inside
`if effective_allow_wildcard and n_with_wildcards > 0:`, so evaluating it
with wildcard matching enabled but zero flagged targets raises Python's
`NameError`/`UnboundLocalError` — modelled as an `Except.error`. -/

/-- `_get_wildcard_targets` (injected by `_inject_wildcard_metadata`):
restrict the four parallel arrays to the indices whose
`contains_wildcards` flag is `True`. -/
def get_wildcard_targets (db : SequenceDB) (contains_wildcards : List Bool) :
    SequenceDB :=
  let indices := (List.range contains_wildcards.length).filter
    (fun i => contains_wildcards.getD i false)
  { ids := indices.map (fun i => db.ids.getD i "")
    sequences := indices.map (fun i => db.sequences.getD i [])
    ambiguous_il_sequences := indices.map (fun i => db.ambiguous_il_sequences.getD i [])
    accessions := indices.map (fun i => db.accessions.getD i "") }

/-- The matching phase of `run_pipeline`: validation, database construction,
strict engine, conditional wildcard engine, and the `result_wildcard`
argument evaluated for `write_outputs`.  Returns
`(result_strict, result_wildcard argument, total match count)`. -/
def run_pipeline_match_phase (matchingFunc : SequenceDB → SequenceDB → MatchResult)
    (targetInputs queryInputs : List (String × List Char))
    (allowWildcard : Bool) (wildcards : List Char) :
    Except String (MatchResult × Option MatchResult × Nat) := do
  -- effective_allow_wildcard: wildcard matching silently disabled when the
  -- wildcard set is empty
  let effective := allowWildcard && !wildcards.isEmpty
  if !wildcards.isEmpty then validates_wildcards wildcards else pure ()
  -- per-target validation, collecting the wildcard-detected flags
  let flags ← targetInputs.mapM (fun obj => validate_target_input obj.1 obj.2 wildcards)
  let nWithWildcards := (flags.filter (fun b => b)).length
  let _ ← queryInputs.mapM (fun obj => validate_query_input obj.1 obj.2)
  -- build databases
  let target_db := build_database targetInputs .target
  let query_db := build_database queryInputs .query
  -- strict matching
  let result_strict := matchingFunc target_db query_db
  -- wildcard matching, only when enabled and at least one target is flagged
  let rwOpt : Option MatchResult :=
    if effective = true ∧ 0 < nWithWildcards then
      some (run_wildcard_match (get_wildcard_targets target_db flags) query_db wildcards)
    else none
  let total := result_strict.matchList.length +
    (match rwOpt with | some r => r.matchList.length | none => 0)
  -- the `result_wildcard = result_wildcard_matching if effective_allow_wildcard
  -- else None` argument of the `write_outputs` call: referencing the unassigned
  -- local raises at runtime
  let resultWildcardArg ←
    if effective then
      match rwOpt with
      | some r => pure (some r)
      | none => Except.error "NameError: name result_wildcard_matching is not defined"
    else pure none
  return (result_strict, resultWildcardArg, total)

/-! ## Statistics builder (`io/writers.py`, `compute_matching_statistics`)

Python floats are modelled as `Rat` (exact arithmetic; the claims under
test do not depend on float rounding).  `if result_wildcard:` tests Python
truthiness: `MatchResult` defines `__len__`, so an *empty* wildcard result
is falsy. -/

/-- Value of one statistics row. -/
inductive StatValue
  | str (s : String)
  | nat (n : Nat)
  | rat (q : Rat)
  | bool (b : Bool)
  | pynone
deriving DecidableEq

/-- `SequenceDB.n_unique_accessions`: `len({acc for acc in self.accessions})`. -/
def SequenceDB.n_unique_accessions (db : SequenceDB) : Nat :=
  db.accessions.dedup.length

/-- Python truthiness of `result_wildcard` (`None` and an empty
`MatchResult` are both falsy). -/
def optTruthy : Option MatchResult → Bool
  | some r => !r.matchList.isEmpty
  | none => false

/-- `compute_rescued_queries` from `io/writers.py`: wildcard-matched query
ids minus strict-matched query ids. -/
def compute_rescued_queries (strict wildcard : MatchResult) : List String :=
  wildcard.queryKeys.filter (fun qid => qid ∉ strict.queryKeys)

/-- `TargetDB.n_targets_with_wildcards`: 0 when the `contains_wildcards`
attribute was never injected, else the number of `True` flags. -/
def n_targets_with_wildcards (contains_wildcards : Option (List Bool)) : Nat :=
  match contains_wildcards with
  | none => 0
  | some flags => (flags.filter (fun b => b)).length

/-- `compute_matching_statistics` from `io/writers.py`.  The function
accumulates `(source, metric, value)` rows; after the two
`strict_matching` count rows it evaluates
`result_strict.mean_matches_per_unique_query()` —
but `MatchResult` (`core/results.py`) defines no method of that name (nor
`max_matches_per_unique_query`), so every call raises `AttributeError`
there; the rows built so far are discarded.  The row construction up to
that point is reproduced faithfully below. -/
def compute_matching_statistics (query_db target_db : SequenceDB)
    (target_contains_wildcards : Option (List Bool))
    (result_strict : MatchResult) (result_wildcard : Option MatchResult)
    (matching_engine : String) (allow_wildcard : Bool)
    (wildcards : Option (List Char)) (timestamp : String)
    (analysis_name : Option String) :
    Except String (List (String × String × StatValue)) :=
  -- global metadata
  let rows : List (String × String × StatValue) :=
    [("global_metadata", "timestamp", .str timestamp),
     ("global_metadata", "analysis_name",
        .str (analysis_name.getD "unnamed_analysis")),
     ("global_metadata", "matching_engine", .str matching_engine),
     ("global_metadata", "allow_wildcard", .bool allow_wildcard)] ++
    (if allow_wildcard then
      [("global_metadata", "wildcards",
        match wildcards with
        | some ws => .str (String.intercalate ", "
            ((ws.mergeSort (fun a b => a ≤ b)).map (fun c => String.mk [c])))
        | none => .pynone)]
     else []) ++
    -- query db
    [("query_db", "n_queries", .nat query_db.size),
     ("query_db", "n_unique_queries", .nat query_db.n_unique_accessions)] ++
    -- target db
    [("target_db", "n_targets", .nat target_db.size)] ++
    (if allow_wildcard then
      [("target_db", "n_targets_with_wildcards",
          .nat (n_targets_with_wildcards target_contains_wildcards)),
       ("target_db", "fraction_targets_with_wildcards",
          .rat (if target_db.size = 0 then 0 else
            (n_targets_with_wildcards target_contains_wildcards : Rat) /
              (target_db.size : Rat)))]
     else []) ++
    -- matching summary
    (let nTotal := result_strict.matchList.length +
        (if optTruthy result_wildcard then
          (result_wildcard.getD ⟨[]⟩).matchList.length else 0)
     let strictQueries := result_strict.queryKeys
     let wildcardQueries := if optTruthy result_wildcard then
        (result_wildcard.getD ⟨[]⟩).queryKeys else []
     let allMatchedQueries := (strictQueries ++ wildcardQueries).dedup
     let mergedCounts := allMatchedQueries.map (fun qid =>
        result_strict.n_matches_for_query qid +
          (if optTruthy result_wildcard then
            (result_wildcard.getD ⟨[]⟩).n_matches_for_query qid else 0))
     let strictTargets := result_strict.targetKeys
     let wildcardTargets := if optTruthy result_wildcard then
        (result_wildcard.getD ⟨[]⟩).targetKeys else []
     let allTargetsHit := (strictTargets ++ wildcardTargets).dedup
     let mergedTargetCounts := allTargetsHit.map (fun tid =>
        (result_strict.matches_for_target tid).length +
          (if optTruthy result_wildcard then
            ((result_wildcard.getD ⟨[]⟩).matches_for_target tid).length else 0))
     [("matching_summary", "n_total_matches", .nat nTotal),
      ("matching_summary", "n_strict_matches", .nat result_strict.matchList.length)] ++
     (if allow_wildcard then
       [("matching_summary", "n_wildcard_matches",
          .nat (if optTruthy result_wildcard then
            (result_wildcard.getD ⟨[]⟩).matchList.length else 0))]
      else []) ++
     [("matching_summary", "n_unique_queries_with_match", .nat allMatchedQueries.length),
      ("matching_summary", "fraction_unique_queries_with_match",
        .rat (if query_db.n_unique_accessions = 0 then 0 else
          (allMatchedQueries.length : Rat) / (query_db.n_unique_accessions : Rat))),
      ("matching_summary", "mean_matches_per_unique_query",
        .rat (if mergedCounts.isEmpty then 0 else
          ((mergedCounts.sum : Rat) / (mergedCounts.length : Rat)))),
      ("matching_summary", "max_matches_per_unique_query",
        .nat (mergedCounts.foldl max 0)),
      ("matching_summary", "n_targets_hit", .nat allTargetsHit.length),
      ("matching_summary", "mean_queries_per_target_with_match",
        .rat (if mergedTargetCounts.isEmpty then 0 else
          ((mergedTargetCounts.sum : Rat) / (mergedTargetCounts.length : Rat)))),
      ("matching_summary", "max_queries_per_target_with_match",
        .nat (mergedTargetCounts.foldl max 0))]) ++
    -- strict matching section, first two rows
    [("strict_matching", "n_unique_queries_with_strict_match",
        .nat result_strict.n_unique_queries),
     ("strict_matching", "fraction_unique_queries_with_strict_match",
        .rat (if query_db.n_unique_accessions = 0 then 0 else
          (result_strict.n_unique_queries : Rat) / (query_db.n_unique_accessions : Rat)))]
  -- `result_strict.mean_matches_per_unique_query()`: no such attribute
  let _ := rows
  .error "AttributeError: MatchResult object has no attribute mean_matches_per_unique_query"

/-! ## Theorems -/

theorem il_to_j_eq_ilCollapse (s : List Char) : il_to_j s = ilCollapse s := by
  simp only [il_to_j, ilCollapse, List.map_map]
  refine List.map_congr_left ?_
  intro c _
  by_cases hI : c = 'I' <;> by_cases hL : c = 'L' <;>
    simp [Function.comp, hI, hL]

theorem decRepr_ne_nil (m : Nat) : decRepr m ≠ [] := by
  unfold decRepr
  split
  · simp
  · simp only [ne_eq, List.reverse_eq_nil_iff, List.map_eq_nil_iff]
    exact Nat.digits_ne_nil_iff_ne_zero.mpr (by assumption)

theorem digitChar_inj_lt_ten :
    ∀ a < 10, ∀ b < 10, Nat.digitChar a = Nat.digitChar b → a = b := by
  decide

theorem map_digitChar_inj :
    ∀ l₁ l₂ : List Nat, (∀ x ∈ l₁, x < 10) → (∀ x ∈ l₂, x < 10) →
      l₁.map Nat.digitChar = l₂.map Nat.digitChar → l₁ = l₂ := by
  intro l₁
  induction l₁ with
  | nil => intro l₂ _ _ h; cases l₂ <;> simp_all
  | cons a t ih =>
      intro l₂ h₁ h₂ h
      cases l₂ with
      | nil => simp_all
      | cons b t₂ =>
          simp only [List.map_cons, List.cons.injEq] at h
          have ha : a = b :=
            digitChar_inj_lt_ten a (h₁ a (by simp)) b (h₂ b (by simp)) h.1
          have ht : t = t₂ :=
            ih t₂ (fun x hx => h₁ x (by simp [hx])) (fun x hx => h₂ x (by simp [hx])) h.2
          rw [ha, ht]

theorem decRepr_inj : ∀ a b : Nat, decRepr a = decRepr b → a = b := by
  have key : ∀ a b : Nat, a ≠ 0 → b ≠ 0 → decRepr a = decRepr b → a = b := by
    intro a b ha hb h
    unfold decRepr at h
    rw [if_neg ha, if_neg hb] at h
    have h' := List.reverse_injective h
    have hd := map_digitChar_inj (Nat.digits 10 a) (Nat.digits 10 b)
      (fun x hx => Nat.digits_lt_base (by norm_num) hx)
      (fun x hx => Nat.digits_lt_base (by norm_num) hx) h'
    have := congrArg (Nat.ofDigits 10) hd
    rwa [Nat.ofDigits_digits, Nat.ofDigits_digits] at this
  intro a b h
  by_cases ha : a = 0 <;> by_cases hb : b = 0
  · omega
  · exfalso
    subst ha
    unfold decRepr at h
    rw [if_pos rfl, if_neg hb] at h
    have hd := map_digitChar_inj [0] (Nat.digits 10 b) (by simp)
      (fun x hx => Nat.digits_lt_base (by norm_num) hx)
      (by simpa using congrArg List.reverse h)
    have := congrArg (Nat.ofDigits 10) hd.symm
    rw [Nat.ofDigits_digits] at this
    simp [Nat.ofDigits] at this
    exact hb this
  · exfalso
    subst hb
    unfold decRepr at h
    rw [if_neg ha, if_pos rfl] at h
    have hd := map_digitChar_inj [0] (Nat.digits 10 a) (by simp)
      (fun x hx => Nat.digits_lt_base (by norm_num) hx)
      (by simpa using congrArg List.reverse h.symm)
    have := congrArg (Nat.ofDigits 10) hd.symm
    rw [Nat.ofDigits_digits] at this
    simp [Nat.ofDigits] at this
    exact ha this
  · exact key a b ha hb h

theorem decRepr_head_ne_zero (m : Nat) (hm : m ≠ 0) :
    ∀ t, decRepr m ≠ '0' :: t := by
  intro t h
  unfold decRepr at h
  rw [if_neg hm] at h
  have hne : Nat.digits 10 m ≠ [] := Nat.digits_ne_nil_iff_ne_zero.mpr hm
  have hlast : (Nat.digits 10 m).getLast hne ≠ 0 :=
    Nat.getLast_digit_ne_zero 10 hm
  have hrev : ((Nat.digits 10 m).map Nat.digitChar).reverse.head? = some '0' := by
    rw [h]; rfl
  rw [List.head?_reverse, List.getLast?_map,
    List.getLast?_eq_getLast _ hne] at hrev
  have hlt : (Nat.digits 10 m).getLast hne < 10 :=
    Nat.digits_lt_base (by norm_num) (List.getLast_mem hne)
  have := digitChar_inj_lt_ten _ hlt 0 (by norm_num) (by simpa using hrev)
  exact hlast this

theorem zeroPad_inj {s₁ s₂ : List Char} (a b : Nat)
    (h₁ : ∀ t, s₁ ≠ '0' :: t) (h₂ : ∀ t, s₂ ≠ '0' :: t)
    (h : List.replicate a '0' ++ s₁ = List.replicate b '0' ++ s₂) : s₁ = s₂ := by
  induction a generalizing b with
  | zero =>
      cases b with
      | zero => simpa using h
      | succ b =>
          exfalso
          simp only [List.replicate_succ, List.nil_append, List.cons_append] at h
          exact h₁ _ h
  | succ a ih =>
      cases b with
      | zero =>
          exfalso
          simp only [List.replicate_succ, List.nil_append, List.cons_append] at h
          exact h₂ _ h.symm
      | succ b =>
          simp only [List.replicate_succ, List.cons_append, List.cons.injEq] at h
          exact ih b h.2

theorem generate_ids_nodup (pre : String) (n : Nat) : (generate_ids pre n).Nodup := by
  unfold generate_ids
  refine List.Nodup.map_on ?_ (List.nodup_range n)
  intro i _ j _ h
  have hdata := congrArg String.data h
  simp only [String.data_append] at hdata
  have hpad := List.append_cancel_left hdata
  have hrepr := zeroPad_inj _ _
    (decRepr_head_ne_zero (i + 1) (by omega))
    (decRepr_head_ne_zero (j + 1) (by omega)) hpad
  have := decRepr_inj _ _ hrepr
  omega

theorem mem_dictInsert {α β : Type} [DecidableEq α] (d : List (α × β)) (k : α) (v : β)
    (x : α × β) (hk : ∀ w, (k, w) ∉ d) :
    (x ∈ dictInsert d k v ↔ x ∈ d ∨ x = (k, v)) := by
  unfold dictInsert
  have : d.any (fun p => p.1 = k) = false := by
    rw [List.any_eq_false]
    intro p hp
    simp only [decide_eq_true_eq]
    intro hpk
    have hp' : (p.1, p.2) ∈ d := hp
    rw [hpk] at hp'
    exact hk p.2 hp'
  rw [this]
  simp

/-- When all inserted keys are distinct and non-empty, the automaton holds
exactly the input pairs, reversed into `(key, value)` form. -/
theorem build_automaton_eq (queries : List (String × List Char))
    (hnil : ∀ q ∈ queries, q.2 ≠ [])
    (hnodup : (queries.map (fun q => q.2)).Nodup) :
    build_automaton queries = queries.map (fun q => (q.2, q.1)) := by
  unfold build_automaton
  suffices h : ∀ (qs : List (String × List Char)) (acc : List (List Char × String)),
      (∀ q ∈ qs, q.2 ≠ []) → (qs.map (fun q => q.2)).Nodup →
      (∀ q ∈ qs, ∀ v, (q.2, v) ∉ acc) →
      qs.foldl (fun d q => if q.2 = [] then d else dictInsert d q.2 q.1) acc =
        acc ++ qs.map (fun q => (q.2, q.1)) by
    simpa using h queries [] hnil hnodup (by simp)
  intro qs
  induction qs with
  | nil => simp
  | cons q rest ih =>
      intro acc hn hd hfresh
      rw [List.map_cons, List.nodup_cons] at hd
      simp only [List.foldl_cons]
      rw [if_neg (hn q (by simp))]
      have hins : dictInsert acc q.2 q.1 = acc ++ [(q.2, q.1)] := by
        unfold dictInsert
        have hany : acc.any (fun p => p.1 = q.2) = false := by
          rw [List.any_eq_false]
          intro p hp
          simp only [decide_eq_true_eq]
          intro hpk
          have hp' : (p.1, p.2) ∈ acc := hp
          rw [hpk] at hp'
          exact hfresh q (by simp) p.2 hp'
        rw [hany]
        simp
      rw [hins]
      rw [ih (acc ++ [(q.2, q.1)]) (fun x hx => hn x (by simp [hx])) hd.2 ?_]
      · simp
      · intro x hx v hv
        rcases List.mem_append.mp hv with h1 | h1
        · exact hfresh x (by simp [hx]) v h1
        · simp only [List.mem_singleton, Prod.mk.injEq] at h1
          have hmem : x.2 ∈ rest.map (fun q => q.2) := List.mem_map_of_mem _ hx
          rw [h1.1] at hmem
          exact hd.1 hmem

theorem mem_ahoIter (d : List (List Char × String)) (t : List Char)
    (e : Nat) (qid : String) (pat : List Char) :
    (e, qid, pat) ∈ ahoIter d t ↔
      e < t.length ∧ (pat, qid) ∈ d ∧ occursEndingAt pat t e := by
  unfold ahoIter
  simp only [List.mem_flatMap, List.mem_range, List.mem_map, List.mem_filter,
    decide_eq_true_eq]
  constructor
  · rintro ⟨e', he', ⟨p, ⟨hpd, hocc⟩, heq⟩⟩
    obtain ⟨k, v⟩ := p
    simp only [Prod.mk.injEq] at heq
    obtain ⟨h1, h2, h3⟩ := heq
    subst h1; subst h2; subst h3
    exact ⟨he', hpd, hocc⟩
  · rintro ⟨he, hd, hocc⟩
    exact ⟨e, he, ⟨(pat, qid), ⟨hd, hocc⟩, rfl⟩⟩

/-- Central characterization of the exact engine: when the queries'
normalized sequences are non-empty and pairwise distinct, `run_ahocorasick`
emits exactly the occurrences. -/
theorem mem_run_ahocorasick (tdb qdb : SequenceDB)
    (hnil : ∀ q ∈ qdb.ids.zip qdb.ambiguous_il_sequences, q.2 ≠ [])
    (hnodup : ((qdb.ids.zip qdb.ambiguous_il_sequences).map (fun q => q.2)).Nodup)
    (qid tid : String) (pos : Nat) :
    Match.mk qid tid pos ∈ (run_ahocorasick tdb qdb).matchList ↔
      ∃ tseq, (tid, tseq) ∈ tdb.ids.zip tdb.ambiguous_il_sequences ∧
        ∃ qseq, (qid, qseq) ∈ qdb.ids.zip qdb.ambiguous_il_sequences ∧
          occursAt qseq tseq pos := by
  unfold run_ahocorasick
  rw [build_automaton_eq _ hnil hnodup]
  simp only [List.mem_flatMap, List.mem_map]
  constructor
  · rintro ⟨tp, htp, hit, hhit, heq⟩
    obtain ⟨e, hqid, pat⟩ := hit
    obtain ⟨tid', tseq⟩ := tp
    simp only [Match.mk.injEq] at heq
    obtain ⟨h1, h2, h3⟩ := heq
    rw [mem_ahoIter] at hhit
    obtain ⟨he, hmem, hlen, hocc⟩ := hhit
    simp only [List.mem_map] at hmem
    obtain ⟨qp, hqp, hqpe⟩ := hmem
    obtain ⟨qid', qseq⟩ := qp
    simp only [Prod.mk.injEq] at hqpe
    obtain ⟨hq1, hq2⟩ := hqpe
    refine ⟨tseq, by rw [← h2]; exact htp, qseq, ?_, ?_⟩
    · rw [← h1, ← hq2]; exact hqp
    · rw [hq1, ← h3]; exact hocc
  · rintro ⟨tseq, htp, qseq, hqp, hocc⟩
    have hqnil : qseq ≠ [] := hnil (qid, qseq) hqp
    have hlen1 : 1 ≤ qseq.length := by
      cases qseq with
      | nil => exact absurd rfl hqnil
      | cons a t => simp
    have hle : pos + qseq.length ≤ tseq.length := hocc.1
    refine ⟨(tid, tseq), htp, (pos + qseq.length - 1, qid, qseq), ?_, ?_⟩
    · rw [mem_ahoIter]
      refine ⟨?_, ?_, ?_⟩
      · show pos + qseq.length - 1 < tseq.length
        omega
      · exact List.mem_map_of_mem _ hqp
      · constructor
        · omega
        · show occursAt qseq tseq (pos + qseq.length - 1 + 1 - qseq.length)
          have harith : pos + qseq.length - 1 + 1 - qseq.length = pos := by omega
          rw [harith]
          exact hocc
    · show Match.mk qid tid (pos + qseq.length - 1 + 1 - qseq.length) = Match.mk qid tid pos
      have harith : pos + qseq.length - 1 + 1 - qseq.length = pos := by omega
      rw [harith]

/-- With no stored patterns the scan yields nothing. -/
theorem run_ahocorasick_empty (tdb qdb : SequenceDB)
    (h : qdb.ambiguous_il_sequences = []) :
    (run_ahocorasick tdb qdb).matchList = [] := by
  unfold run_ahocorasick build_automaton
  rw [h]
  simp [ahoIter]

theorem find?_range'_min (p : Nat → Bool) :
    ∀ (n s j : Nat), (List.range' s n).find? p = some j →
      ∀ i, s ≤ i → i < j → p i = false := by
  intro n
  induction n with
  | zero => intro s j h; simp at h
  | succ n ih =>
      intro s j h i hsi hij
      rw [List.range'_succ s n 1] at h
      rw [List.find?_cons] at h
      cases hps : p s with
      | true =>
          rw [hps] at h
          simp only [Option.some.injEq] at h
          omega
      | false =>
          rw [hps] at h
          simp only at h
          rcases Nat.eq_or_lt_of_le hsi with rfl | hlt
          · exact hps
          · exact ih (s + 1) j h i hlt hij

theorem strFind_none (seq pep : List Char) : ∀ start,
    (strFind seq pep start = none ↔ ∀ j, start ≤ j → ¬ occursAt pep seq j) := by
  intro start
  unfold strFind
  rw [List.find?_eq_none]
  constructor
  · intro h j hj hocc
    have hj2 : j + pep.length ≤ seq.length := hocc.1
    have hjm : j ∈ List.range' start (seq.length + 1 - start) := by
      rw [List.mem_range'_1]
      omega
    exact h j hjm (by simpa using hocc)
  · intro h j hjm
    rw [List.mem_range'_1] at hjm
    simp only [decide_eq_true_eq]
    exact h j hjm.1

theorem strFind_some (seq pep : List Char) : ∀ start j,
    (strFind seq pep start = some j ↔
      start ≤ j ∧ occursAt pep seq j ∧
        ∀ i, start ≤ i → i < j → ¬ occursAt pep seq i) := by
  intro start j
  constructor
  · intro h
    have hmem := List.mem_of_find?_eq_some h
    rw [List.mem_range'_1] at hmem
    have hp := List.find?_some h
    simp only [decide_eq_true_eq] at hp
    refine ⟨hmem.1, hp, ?_⟩
    intro i h1 h2 hocc
    have := find?_range'_min _ _ _ _ h i h1 h2
    simp [hocc] at this
  · rintro ⟨hj, hocc, hmin⟩
    cases hfind : strFind seq pep start with
    | none =>
        rw [strFind_none] at hfind
        exact absurd hocc (hfind j hj)
    | some j0 =>
        have hmem := List.mem_of_find?_eq_some hfind
        rw [List.mem_range'_1] at hmem
        have hp := List.find?_some hfind
        simp only [decide_eq_true_eq] at hp
        have hj0j : ¬ j0 < j := fun hlt => hmin j0 hmem.1 hlt hp
        have hjj0 : ¬ j < j0 := by
          intro hlt
          have := find?_range'_min _ _ _ _ hfind j hj hlt
          simp only [decide_eq_true_eq, decide_eq_false_iff_not] at this
          exact this hocc
        have : j0 = j := by omega
        rw [this]

theorem mem_findAllFrom (seq pep : List Char) : ∀ start j,
    (j ∈ findAllFrom seq pep start ↔ start ≤ j ∧ occursAt pep seq j) := by
  have main : ∀ n start, seq.length + 1 - start ≤ n → ∀ j,
      (j ∈ findAllFrom seq pep start ↔ start ≤ j ∧ occursAt pep seq j) := by
    intro n
    induction n with
    | zero =>
        intro start hst j
        rw [findAllFrom]
        have hnone : strFind seq pep start = none := by
          rw [strFind_none]
          intro i hi hocc
          have := hocc.1
          omega
        rw [hnone]
        simp only [List.not_mem_nil, false_iff, not_and]
        intro hj hocc
        have := hocc.1
        omega
    | succ n ih =>
        intro start hst j
        rw [findAllFrom]
        cases hfind : strFind seq pep start with
        | none =>
            simp only [List.not_mem_nil, false_iff, not_and]
            rw [strFind_none] at hfind
            intro hj
            exact hfind j hj
        | some j0 =>
            have hs := (strFind_some seq pep start j0).mp hfind
            have hb := hs.2.1.1
            simp only [List.mem_cons]
            rw [ih (j0 + 1) (by omega) j]
            constructor
            · rintro (rfl | ⟨hj, hocc⟩)
              · exact ⟨hs.1, hs.2.1⟩
              · exact ⟨by omega, hocc⟩
            · rintro ⟨hj, hocc⟩
              by_cases hcase : j = j0
              · exact Or.inl hcase
              · refine Or.inr ⟨?_, hocc⟩
                by_contra hlt
                push_neg at hlt
                exact hs.2.2 j hj (by omega) hocc
  intro start
  exact main (seq.length + 1 - start) start (le_refl _)

theorem mem_match_peptoprot_find (peptides : List (List Char))
    (proteome : List (String × List Char)) (tid : String) (pep : List Char)
    (j : Nat) :
    (tid, pep, j) ∈ match_peptoprot_find peptides proteome ↔
      ∃ tseq, (tid, tseq) ∈ proteome ∧ pep ∈ peptides ∧ occursAt pep tseq j := by
  unfold match_peptoprot_find
  simp only [List.mem_flatMap, List.mem_map]
  constructor
  · rintro ⟨rec, hrec, pep', hpep', j', hj', heq⟩
    obtain ⟨rid, rseq⟩ := rec
    simp only [Prod.mk.injEq] at heq
    obtain ⟨h1, h2, h3⟩ := heq
    rw [mem_findAllFrom] at hj'
    refine ⟨rseq, by rw [← h1]; exact hrec, by rw [← h2]; exact hpep', ?_⟩
    rw [← h2, ← h3]
    exact hj'.2
  · rintro ⟨tseq, htseq, hpep, hocc⟩
    exact ⟨(tid, tseq), htseq, pep, hpep,
      ⟨j, (mem_findAllFrom tseq pep 0 j).mpr ⟨Nat.zero_le _, hocc⟩, rfl⟩⟩

theorem mem_dictEntries_dictAppend {α β : Type} [DecidableEq α]
    (d : List (α × List β)) (k : α) (v : β) (x : α × β) :
    x ∈ dictEntries (dictAppend d k v) ↔ x ∈ dictEntries d ∨ x = (k, v) := by
  unfold dictAppend
  by_cases hany : d.any (fun p => p.1 = k) = true
  · rw [if_pos hany]
    unfold dictEntries
    rw [List.flatMap_map]
    simp only [List.mem_flatMap]
    constructor
    · rintro ⟨p₀, hp₀, hv⟩
      by_cases hk : p₀.1 = k
      · rw [if_pos hk] at hv
        simp only [List.map_append, List.mem_append, List.map_cons, List.map_nil,
          List.mem_singleton, List.mem_map] at hv
        rcases hv with ⟨w, hw, hxw⟩ | h1
        · exact Or.inl ⟨p₀, hp₀, List.mem_map.mpr ⟨w, hw, hxw⟩⟩
        · rw [h1, hk]
          exact Or.inr rfl
      · rw [if_neg hk] at hv
        exact Or.inl ⟨p₀, hp₀, hv⟩
    · rintro (⟨p, hp, hv⟩ | rfl)
      · obtain ⟨w, hw, hxw⟩ := List.mem_map.mp hv
        refine ⟨p, hp, ?_⟩
        by_cases hk : p.1 = k
        · rw [if_pos hk]
          exact List.mem_map.mpr ⟨w, by simp [hw], hxw⟩
        · rw [if_neg hk]
          exact List.mem_map.mpr ⟨w, hw, hxw⟩
      · rw [List.any_eq_true] at hany
        obtain ⟨p, hp, hpk⟩ := hany
        simp only [decide_eq_true_eq] at hpk
        refine ⟨p, hp, ?_⟩
        rw [if_pos hpk]
        simp [hpk]
  · rw [if_neg hany]
    unfold dictEntries
    rw [List.flatMap_append]
    simp [List.mem_append]

theorem mem_get_peptide_dict (queries : List (String × List Char))
    (k : Nat) (q : String × List Char) :
    (k, q) ∈ dictEntries (get_peptide_dict queries) ↔ q ∈ queries ∧ q.2.length = k := by
  unfold get_peptide_dict
  suffices h : ∀ (qs : List (String × List Char)) (acc : List (Nat × List (String × List Char))),
      ((k, q) ∈ dictEntries (qs.foldl (fun d q => dictAppend d q.2.length q) acc) ↔
        (k, q) ∈ dictEntries acc ∨ (q ∈ qs ∧ q.2.length = k)) by
    rw [h queries []]
    simp [dictEntries]
  intro qs
  induction qs with
  | nil => simp
  | cons q₀ rest ih =>
      intro acc
      simp only [List.foldl_cons]
      rw [ih (dictAppend acc q₀.2.length q₀)]
      rw [mem_dictEntries_dictAppend]
      constructor
      · rintro ((h | h) | h)
        · exact Or.inl h
        · simp only [Prod.mk.injEq] at h
          exact Or.inr ⟨by rw [h.2]; simp, by rw [h.2, h.1]⟩
        · exact Or.inr ⟨by simp [h.1], h.2⟩
      · rintro (h | ⟨hmem, hlen⟩)
        · exact Or.inl (Or.inl h)
        · rcases List.mem_cons.mp hmem with rfl | h1
          · exact Or.inl (Or.inr (by rw [← hlen]))
          · exact Or.inr ⟨h1, hlen⟩

theorem mem_wildcardWindowStarts (i k n j : Nat) :
    j ∈ wildcardWindowStarts i k n ↔ j ≤ i ∧ i < j + k ∧ j + k ≤ n := by
  unfold wildcardWindowStarts
  rw [List.mem_range'_1]
  omega

theorem mem_dictEntries {α β : Type} (d : List (α × List β)) (k : α) (v : β) :
    (k, v) ∈ dictEntries d ↔ ∃ p ∈ d, p.1 = k ∧ v ∈ p.2 := by
  unfold dictEntries
  simp only [List.mem_flatMap, List.mem_map]
  constructor
  · rintro ⟨p, hp, w, hw, hwe⟩
    simp only [Prod.mk.injEq] at hwe
    exact ⟨p, hp, hwe.1, by rw [← hwe.2]; exact hw⟩
  · rintro ⟨p, hp, hk, hv⟩
    exact ⟨p, hp, v, hv, by rw [hk]⟩

theorem mem_dictEntries_foldl_append {α β γ : Type} [DecidableEq α]
    (key : γ → α) (val : γ → β) :
    ∀ (l : List γ) (d : List (α × List β)) (x : α × β),
      (x ∈ dictEntries (l.foldl (fun d c => dictAppend d (key c) (val c)) d) ↔
        x ∈ dictEntries d ∨ ∃ c ∈ l, x = (key c, val c)) := by
  intro l
  induction l with
  | nil => simp
  | cons c rest ih =>
      intro d x
      simp only [List.foldl_cons]
      rw [ih (dictAppend d (key c) (val c)) x, mem_dictEntries_dictAppend]
      constructor
      · rintro ((h | h) | h)
        · exact Or.inl h
        · exact Or.inr ⟨c, by simp, h⟩
        · obtain ⟨c', hc', he⟩ := h
          exact Or.inr ⟨c', by simp [hc'], he⟩
      · rintro (h | ⟨c', hc', he⟩)
        · exact Or.inl (Or.inl h)
        · rcases List.mem_cons.mp hc' with rfl | h1
          · exact Or.inl (Or.inr he)
          · exact Or.inr ⟨c', h1, he⟩

theorem mem_compute_kmers_for_wildcards (sequence : List Char) (k : Nat)
    (wildcards : List Char) (kmer : List Char) (j : Nat) :
    (kmer, j) ∈ dictEntries (compute_kmers_for_wildcards sequence k wildcards) ↔
      ∃ i, i < sequence.length ∧ sequence.getD i ' ' ∈ wildcards ∧
        j ≤ i ∧ i < j + k ∧ j + k ≤ sequence.length ∧
        kmer = (sequence.drop j).take k := by
  unfold compute_kmers_for_wildcards
  suffices h : ∀ (is : List Nat) (d : List (List Char × List Nat)),
      ((kmer, j) ∈ dictEntries (is.foldl
          (fun d i =>
            if sequence.getD i ' ' ∈ wildcards then
              (wildcardWindowStarts i k sequence.length).foldl
                (fun d j => dictAppend d ((sequence.drop j).take k) j) d
            else d) d) ↔
        (kmer, j) ∈ dictEntries d ∨
          ∃ i ∈ is, sequence.getD i ' ' ∈ wildcards ∧
            j ∈ wildcardWindowStarts i k sequence.length ∧
            kmer = (sequence.drop j).take k) by
    rw [h (List.range sequence.length) []]
    simp only [dictEntries, List.flatMap_nil, List.not_mem_nil, false_or, List.mem_range]
    constructor
    · rintro ⟨i, hi, hw, hwin, hkmer⟩
      rw [mem_wildcardWindowStarts] at hwin
      exact ⟨i, hi, hw, hwin.1, hwin.2.1, hwin.2.2, hkmer⟩
    · rintro ⟨i, hi, hw, h1, h2, h3, hkmer⟩
      exact ⟨i, hi, hw, (mem_wildcardWindowStarts i k sequence.length j).mpr ⟨h1, h2, h3⟩, hkmer⟩
  intro is
  induction is with
  | nil => simp
  | cons i rest ih =>
      intro d
      simp only [List.foldl_cons]
      by_cases hw : sequence.getD i ' ' ∈ wildcards
      · rw [if_pos hw]
        rw [ih]
        rw [mem_dictEntries_foldl_append (fun j => (sequence.drop j).take k) (fun j => j)]
        constructor
        · rintro ((h | ⟨j', hj', he⟩) | ⟨i', hi', hw', hwin', he⟩)
          · exact Or.inl h
          · simp only [Prod.mk.injEq] at he
            refine Or.inr ⟨i, by simp, hw, ?_, by rw [he.2]; exact he.1⟩
            rw [he.2]; exact hj'
          · exact Or.inr ⟨i', by simp [hi'], hw', hwin', he⟩
        · rintro (h | ⟨i', hi', hw', hwin', he⟩)
          · exact Or.inl (Or.inl h)
          · rcases List.mem_cons.mp hi' with rfl | h1
            · exact Or.inl (Or.inr ⟨j, hwin', by rw [he]⟩)
            · exact Or.inr ⟨i', h1, hw', hwin', he⟩
      · rw [if_neg hw]
        rw [ih]
        constructor
        · rintro (h | ⟨i', hi', rest'⟩)
          · exact Or.inl h
          · exact Or.inr ⟨i', by simp [hi'], rest'⟩
        · rintro (h | ⟨i', hi', hw', rest'⟩)
          · exact Or.inl h
          · rcases List.mem_cons.mp hi' with rfl | h1
            · exact absurd hw' hw
            · exact Or.inr ⟨i', h1, hw', rest'⟩

/-- Central characterization of the wildcard engine: `Match qid tid pos` is
emitted (at least once) iff some query `(qid, qseq)` fits at `pos` in some
target `(tid, tseq)` under the wildcard-tolerant comparison, with at least
one wildcard inside the window `[pos, pos + len(qseq))`. -/
theorem mem_run_wildcard_match (tdb qdb : SequenceDB) (W : List Char)
    (qid tid : String) (pos : Nat) :
    Match.mk qid tid pos ∈ (run_wildcard_match tdb qdb W).matchList ↔
      ∃ tseq, (tid, tseq) ∈ tdb.ids.zip tdb.ambiguous_il_sequences ∧
        ∃ qseq, (qid, qseq) ∈ qdb.ids.zip qdb.ambiguous_il_sequences ∧
          pos + qseq.length ≤ tseq.length ∧
          (∃ w, pos ≤ w ∧ w < pos + qseq.length ∧ tseq.getD w ' ' ∈ W) ∧
          match_with_wildcards ((tseq.drop pos).take qseq.length) qseq W = true := by
  unfold run_wildcard_match
  simp only [List.mem_flatMap]
  constructor
  · rintro ⟨tp, htp, kl, hkl, pep, hpep, kp, hkp, hmem⟩
    obtain ⟨tid', tseq⟩ := tp
    by_cases hmatch : match_with_wildcards kp.1 pep.2 W = true
    · rw [if_pos hmatch] at hmem
      obtain ⟨pos', hpos', heq⟩ := List.mem_map.mp hmem
      simp only [Match.mk.injEq] at heq
      obtain ⟨h1, h2, h3⟩ := heq
      have hentry : (kl.1, pep) ∈ dictEntries (get_peptide_dict
          (qdb.ids.zip qdb.ambiguous_il_sequences)) :=
        (mem_dictEntries _ _ _).mpr ⟨kl, hkl, rfl, hpep⟩
      rw [mem_get_peptide_dict] at hentry
      have hkentry : (kp.1, pos') ∈ dictEntries
          (compute_kmers_for_wildcards tseq kl.1 W) :=
        (mem_dictEntries _ _ _).mpr ⟨kp, hkp, rfl, hpos'⟩
      rw [mem_compute_kmers_for_wildcards] at hkentry
      obtain ⟨i, hi, hwmem, hji, hik, hjk, hkmer⟩ := hkentry
      obtain ⟨qid', qseq⟩ := pep
      simp only at h1
      refine ⟨tseq, by rw [← h2]; exact htp, qseq, ?_, ?_, ?_, ?_⟩
      · rw [← h1]; exact hentry.1
      · have hlen : qseq.length = kl.1 := hentry.2
        rw [hlen, ← h3]; exact hjk
      · have hlen : qseq.length = kl.1 := hentry.2
        exact ⟨i, by omega, by rw [hlen]; omega, hwmem⟩
      · have hlen : qseq.length = kl.1 := hentry.2
        rw [hlen, ← h3, ← hkmer]
        exact hmatch
    · rw [if_neg hmatch] at hmem
      exact absurd hmem (List.not_mem_nil _)
  · rintro ⟨tseq, htp, qseq, hqp, hjk, ⟨w, hw1, hw2, hw3⟩, hmatch⟩
    have hentry : (qseq.length, (qid, qseq)) ∈ dictEntries (get_peptide_dict
        (qdb.ids.zip qdb.ambiguous_il_sequences)) :=
      (mem_get_peptide_dict _ _ _).mpr ⟨hqp, rfl⟩
    rw [mem_dictEntries] at hentry
    obtain ⟨kl, hkl, hkl1, hklmem⟩ := hentry
    have hkentry : (((tseq.drop pos).take qseq.length), pos) ∈ dictEntries
        (compute_kmers_for_wildcards tseq qseq.length W) := by
      rw [mem_compute_kmers_for_wildcards]
      exact ⟨w, by omega, hw3, hw1, hw2, hjk, rfl⟩
    rw [← hkl1] at hkentry
    rw [mem_dictEntries] at hkentry
    obtain ⟨kp, hkp, hkp1, hkpmem⟩ := hkentry
    refine ⟨(tid, tseq), htp, kl, hkl, (qid, qseq), hklmem, kp, hkp, ?_⟩
    have hcond : match_with_wildcards kp.1 (qid, qseq).2 W = true := by
      rw [hkp1]
      rw [hkl1]
      exact hmatch
    rw [if_pos hcond]
    exact List.mem_map.mpr ⟨pos, hkpmem, rfl⟩

theorem match_with_wildcards_iff (p t W : List Char) (hlen : p.length = t.length) :
    (match_with_wildcards p t W = true ↔
      ∀ i, i < p.length → p.getD i ' ' ∈ W ∨ p.getD i ' ' = t.getD i ' ') := by
  induction p generalizing t with
  | nil => simp [match_with_wildcards]
  | cons a ps ih =>
      cases t with
      | nil => simp at hlen
      | cons b ts =>
          have hlen2 : ps.length = ts.length := by simpa using hlen
          show (((a, b) :: ps.zip ts).all
            (fun pt => pt.1 ∈ W || pt.1 = pt.2) = true ↔ _)
          rw [List.all_cons, Bool.and_eq_true]
          have hrec : ((ps.zip ts).all (fun pt => pt.1 ∈ W || pt.1 = pt.2) = true ↔
              ∀ i, i < ps.length → ps.getD i ' ' ∈ W ∨ ps.getD i ' ' = ts.getD i ' ') :=
            ih ts hlen2
          rw [hrec]
          constructor
          · rintro ⟨h0, hrest⟩ i hi
            cases i with
            | zero =>
                simp only [List.getD_cons_zero]
                simpa using h0
            | succ i =>
                simp only [List.getD_cons_succ]
                exact hrest i (by simpa using hi)
          · intro hall
            constructor
            · have := hall 0 (by simp)
              simpa using this
            · intro i hi
              have := hall (i + 1) (by simpa using hi)
              simpa using this

theorem getD_window (T : List Char) (j k i : Nat) (hjk : j + k ≤ T.length)
    (hi : i < k) : ((T.drop j).take k).getD i ' ' = T.getD (j + i) ' ' := by
  have h1 : i < ((T.drop j).take k).length := by
    simp [List.length_take, List.length_drop]
    omega
  have h2 : j + i < T.length := by omega
  rw [List.getD_eq_getElem _ _ h1, List.getD_eq_getElem _ _ h2]
  simp [List.getElem_take, List.getElem_drop]

/-! ## Claim theorems -/

/-- **C1, counterexample.**  The claim fails on duplicate normalized query
sequences: queries `Q1` (original `IA`) and `Q2` (original `LA`) both
normalize to `JA`.  `pyahocorasick`'s `add_word` is dict-like on the
pattern string, so the second `add_word("JA", ("Q2", "JA"))` replaces the
first tag, and the occurrence of `Q1`'s normalized sequence at offset 0 in
target `T1` (sequence `JA`) is not reported, though the claim requires the
triple `(Q1, T1, 0)`. -/
theorem C1_counterexample :
    occursAt ['J', 'A'] ['J', 'A'] 0 ∧
    Match.mk "Q2" "T1" 0 ∈ (run_ahocorasick
      ⟨["T1"], [['J', 'A']], [['J', 'A']], ["t1"]⟩
      ⟨["Q1", "Q2"], [['I', 'A'], ['L', 'A']], [['J', 'A'], ['J', 'A']],
        ["a", "b"]⟩).matchList ∧
    Match.mk "Q1" "T1" 0 ∉ (run_ahocorasick
      ⟨["T1"], [['J', 'A']], [['J', 'A']], ["t1"]⟩
      ⟨["Q1", "Q2"], [['I', 'A'], ['L', 'A']], [['J', 'A'], ['J', 'A']],
        ["a", "b"]⟩).matchList := by
  decide

/-- **C1 (amended).**  For databases whose zipped normalized query
sequences are non-empty (a data-model invariant) and pairwise distinct, the
exact multi-pattern engine returns exactly the set of
`Match(query_id, target_id, start)` triples such that the query's
normalized sequence occurs in the target's normalized sequence at offset
`start` (the start being `end - pattern_length + 1` for the hit ending at
`end`), all overlapping occurrences included; and an empty query set yields
an empty `MatchResult` rather than an error. -/
theorem C1_exact_engine_occurrence_set (tdb qdb : SequenceDB)
    (hnil : ∀ q ∈ qdb.ids.zip qdb.ambiguous_il_sequences, q.2 ≠ [])
    (hnodup : ((qdb.ids.zip qdb.ambiguous_il_sequences).map (fun q => q.2)).Nodup) :
    (∀ qid tid pos,
      Match.mk qid tid pos ∈ (run_ahocorasick tdb qdb).matchList ↔
        ∃ tseq, (tid, tseq) ∈ tdb.ids.zip tdb.ambiguous_il_sequences ∧
          ∃ qseq, (qid, qseq) ∈ qdb.ids.zip qdb.ambiguous_il_sequences ∧
            occursAt qseq tseq pos) ∧
    (qdb.ambiguous_il_sequences = [] → (run_ahocorasick tdb qdb).matchList = []) :=
  ⟨fun qid tid pos => mem_run_ahocorasick tdb qdb hnil hnodup qid tid pos,
   run_ahocorasick_empty tdb qdb⟩

/-- **C1, witness**: query `AA` against target `AAAA` — all three
overlapping occurrences `0, 1, 2` are reported. -/
theorem C1_witness :
    Match.mk "Q1" "T1" 0 ∈ (run_ahocorasick
      ⟨["T1"], [['A', 'A', 'A', 'A']], [['A', 'A', 'A', 'A']], ["t"]⟩
      ⟨["Q1"], [['A', 'A']], [['A', 'A']], ["q"]⟩).matchList ∧
    Match.mk "Q1" "T1" 1 ∈ (run_ahocorasick
      ⟨["T1"], [['A', 'A', 'A', 'A']], [['A', 'A', 'A', 'A']], ["t"]⟩
      ⟨["Q1"], [['A', 'A']], [['A', 'A']], ["q"]⟩).matchList ∧
    Match.mk "Q1" "T1" 2 ∈ (run_ahocorasick
      ⟨["T1"], [['A', 'A', 'A', 'A']], [['A', 'A', 'A', 'A']], ["t"]⟩
      ⟨["Q1"], [['A', 'A']], [['A', 'A']], ["q"]⟩).matchList := by
  have h := (C1_exact_engine_occurrence_set
    ⟨["T1"], [['A', 'A', 'A', 'A']], [['A', 'A', 'A', 'A']], ["t"]⟩
    ⟨["Q1"], [['A', 'A']], [['A', 'A']], ["q"]⟩ (by decide) (by decide)).1
  refine ⟨(h "Q1" "T1" 0).mpr ?_, (h "Q1" "T1" 1).mpr ?_, (h "Q1" "T1" 2).mpr ?_⟩
  · exact ⟨['A', 'A', 'A', 'A'], by decide, ['A', 'A'], by decide, by decide⟩
  · exact ⟨['A', 'A', 'A', 'A'], by decide, ['A', 'A'], by decide, by decide⟩
  · exact ⟨['A', 'A', 'A', 'A'], by decide, ['A', 'A'], by decide, by decide⟩

/-- **C2.**  The per-window predicate `match_with_wildcards(T[j:j+k], Q)`
holds iff every window character is a wildcard or equals the corresponding
query character; and the spec's two concrete examples. -/
theorem C2_match_with_wildcards_window (T Q W : List Char) (j : Nat)
    (h : j + Q.length ≤ T.length) :
    (match_with_wildcards ((T.drop j).take Q.length) Q W = true ↔
      ∀ i, i < Q.length →
        T.getD (j + i) ' ' ∈ W ∨ T.getD (j + i) ' ' = Q.getD i ' ') ∧
    match_with_wildcards ['A', 'X', 'C'] ['A', 'B', 'C'] ['X'] = true ∧
    match_with_wildcards ['A', 'B', 'D'] ['A', 'B', 'C'] [] = false := by
  refine ⟨?_, by decide, by decide⟩
  have hwlen : ((T.drop j).take Q.length).length = Q.length := by
    simp [List.length_take, List.length_drop]
    omega
  rw [match_with_wildcards_iff _ _ _ hwlen, hwlen]
  constructor
  · intro hall i hi
    have := hall i hi
    rwa [getD_window T j Q.length i h hi] at this
  · intro hall i hi
    rw [getD_window T j Q.length i h hi]
    exact hall i hi

/-- **C2, witness**: the predicate applied to window `T[0:3]` of `AXC`
against `ABC` with wildcard set `{X}`. -/
theorem C2_witness :
    match_with_wildcards ((['A', 'X', 'C'].drop 0).take
      (['A', 'B', 'C'] : List Char).length) ['A', 'B', 'C'] ['X'] = true :=
  ((C2_match_with_wildcards_window ['A', 'X', 'C'] ['A', 'B', 'C'] ['X'] 0
    (by decide)).1).mpr (by decide)

/-- **C3, counterexample.**  Target `XX` (both positions wildcards), query
`AA`: the window at start 0 overlaps two wildcard positions, so
`compute_kmers_for_wildcards` appends position 0 twice under the k-mer
`XX`, and the engine emits the pair `(Q1, 0)` twice — the claim says no
pair is emitted twice. -/
theorem C3_counterexample :
    (run_wildcard_match ⟨["T1"], [['X', 'X']], [['X', 'X']], ["t"]⟩
      ⟨["Q1"], [['A', 'A']], [['A', 'A']], ["q"]⟩ ['X']).matchList =
      [⟨"Q1", "T1", 0⟩, ⟨"Q1", "T1", 0⟩] := by
  decide

/-- **C3 (amended).**  The wildcard engine emits a `Match` for exactly the
(query, window-start) pairs that satisfy the match definition over the
claimed window set — starts `j` with `j ≤ w`, `w + 1 ≤ j + k` for some
wildcard position `w` and `j + k ≤ len(target)` — but not exactly once: a
pair is emitted once per wildcard position overlapping its window (and per
window sharing its k-mer string), so a window overlapping two wildcards is
emitted twice. -/
theorem C3_wildcard_engine_emission_set (tdb qdb : SequenceDB) (W : List Char) :
    ∀ qid tid pos,
      Match.mk qid tid pos ∈ (run_wildcard_match tdb qdb W).matchList ↔
        ∃ tseq, (tid, tseq) ∈ tdb.ids.zip tdb.ambiguous_il_sequences ∧
          ∃ qseq, (qid, qseq) ∈ qdb.ids.zip qdb.ambiguous_il_sequences ∧
            pos + qseq.length ≤ tseq.length ∧
            (∃ w, tseq.getD w ' ' ∈ W ∧ w + 1 ≤ pos + qseq.length ∧ pos ≤ w) ∧
            match_with_wildcards ((tseq.drop pos).take qseq.length) qseq W = true := by
  intro qid tid pos
  rw [mem_run_wildcard_match]
  constructor
  · rintro ⟨tseq, ht, qseq, hq, hlen, ⟨w, h1, h2, h3⟩, hm⟩
    exact ⟨tseq, ht, qseq, hq, hlen, ⟨w, h3, by omega, h1⟩, hm⟩
  · rintro ⟨tseq, ht, qseq, hq, hlen, ⟨w, h1, h2, h3⟩, hm⟩
    exact ⟨tseq, ht, qseq, hq, hlen, ⟨w, h3, by omega, h1⟩, hm⟩

/-- **C4.**  Failing input for `run_pipeline`'s matching phase: wildcard
matching enabled (`allow_wildcard=True`, wildcards `{X}`), one valid target
`P1 = MK` containing no wildcard, one query `p1 = MK`.  Zero targets are
flagged, so the wildcard engine is correctly not run, but evaluating the
`result_wildcard` argument of `write_outputs` references the never-assigned
`result_wildcard_matching` and raises — instead of completing with
`result_wildcard` absent as the claim states. -/
theorem C4_pipeline_unbound_local :
    run_pipeline_match_phase run_ahocorasick [("P1", ['M', 'K'])]
      [("p1", ['M', 'K'])] true ['X'] =
      .error "NameError: name result_wildcard_matching is not defined" := by
  rfl

/-- **C5.**  `compute_matching_statistics` never succeeds: for every input
it reaches `result_strict.mean_matches_per_unique_query()`
(`io/writers.py:268`) and `MatchResult` defines no such method, so the call
raises `AttributeError` — the claim says the mean/max matches per matched
query are computed successfully. -/
theorem C5_statistics_attribute_error (query_db target_db : SequenceDB)
    (tcw : Option (List Bool)) (result_strict : MatchResult)
    (result_wildcard : Option MatchResult) (me : String) (aw : Bool)
    (ws : Option (List Char)) (ts : String) (an : Option String) :
    compute_matching_statistics query_db target_db tcw result_strict
      result_wildcard me aw ws ts an =
      .error "AttributeError: MatchResult object has no attribute mean_matches_per_unique_query" :=
  rfl

/-- **C6, counterexample.**  With two queries sharing the normalized
sequence `JA` (originals `IA` and `LA`), the naive engine finds the
occurrence of that sequence in target `T1` — attributed to `Q1` as well as
`Q2`, since the naive engine identifies a query by its sequence — while the
exact engine's triple set does not contain `(Q1, T1, 0)` (the dict-like
automaton kept only `Q2`'s tag for the shared pattern). -/
theorem C6_counterexample :
    ("T1", ['J', 'A'], 0) ∈ match_peptoprot_find
      [['J', 'A'], ['J', 'A']] [("T1", ['J', 'A'])] ∧
    ("Q1", ['J', 'A']) ∈ (["Q1", "Q2"].zip [['J', 'A'], ['J', 'A']]) ∧
    Match.mk "Q1" "T1" 0 ∉ (run_ahocorasick
      ⟨["T1"], [['J', 'A']], [['J', 'A']], ["t1"]⟩
      ⟨["Q1", "Q2"], [['I', 'A'], ['L', 'A']], [['J', 'A'], ['J', 'A']],
        ["a", "b"]⟩).matchList := by
  refine ⟨(mem_match_peptoprot_find _ _ _ _ _).mpr
    ⟨['J', 'A'], by decide, by decide, by decide⟩, by decide, by decide⟩

/-- **C6 (amended).**  For databases whose zipped normalized query
sequences are non-empty and pairwise distinct, the exact engine's triple
set equals the naive engine's: `Match(qid, tid, pos)` is emitted by
`run_ahocorasick` iff the naive `find`-loop engine, run over the normalized
query sequences and the `(id, normalized sequence)` target records, emits
`(tid, qseq, pos)` for `qid`'s sequence `qseq`. -/
theorem C6_exact_naive_equivalence (tdb qdb : SequenceDB)
    (hnil : ∀ q ∈ qdb.ids.zip qdb.ambiguous_il_sequences, q.2 ≠ [])
    (hnodup : ((qdb.ids.zip qdb.ambiguous_il_sequences).map (fun q => q.2)).Nodup) :
    ∀ qid tid pos,
      Match.mk qid tid pos ∈ (run_ahocorasick tdb qdb).matchList ↔
        ∃ qseq, (qid, qseq) ∈ qdb.ids.zip qdb.ambiguous_il_sequences ∧
          (tid, qseq, pos) ∈ match_peptoprot_find qdb.ambiguous_il_sequences
            (tdb.ids.zip tdb.ambiguous_il_sequences) := by
  intro qid tid pos
  rw [mem_run_ahocorasick tdb qdb hnil hnodup]
  constructor
  · rintro ⟨tseq, ht, qseq, hq, hocc⟩
    exact ⟨qseq, hq, (mem_match_peptoprot_find _ _ _ _ _).mpr
      ⟨tseq, ht, (List.of_mem_zip hq).2, hocc⟩⟩
  · rintro ⟨qseq, hq, hnaive⟩
    obtain ⟨tseq, ht, hpep, hocc⟩ := (mem_match_peptoprot_find _ _ _ _ _).mp hnaive
    exact ⟨tseq, ht, qseq, hq, hocc⟩

/-- **C6, witness**: target `MKTAYIAKQ` (normalized `MKTAYJAKQ`), queries
`TAYI` (normalized `TAYJ`) and `ZZZZ`; both engines agree on the single
occurrence at offset 2. -/
theorem C6_witness :
    Match.mk "Q1" "T1" 2 ∈ (run_ahocorasick
      ⟨["T1"], [['M', 'K', 'T', 'A', 'Y', 'I', 'A', 'K', 'Q']],
        [['M', 'K', 'T', 'A', 'Y', 'J', 'A', 'K', 'Q']], ["t"]⟩
      ⟨["Q1", "Q2"], [['T', 'A', 'Y', 'I'], ['Z', 'Z', 'Z', 'Z']],
        [['T', 'A', 'Y', 'J'], ['Z', 'Z', 'Z', 'Z']], ["a", "b"]⟩).matchList := by
  have h := C6_exact_naive_equivalence
    ⟨["T1"], [['M', 'K', 'T', 'A', 'Y', 'I', 'A', 'K', 'Q']],
      [['M', 'K', 'T', 'A', 'Y', 'J', 'A', 'K', 'Q']], ["t"]⟩
    ⟨["Q1", "Q2"], [['T', 'A', 'Y', 'I'], ['Z', 'Z', 'Z', 'Z']],
      [['T', 'A', 'Y', 'J'], ['Z', 'Z', 'Z', 'Z']], ["a", "b"]⟩
    (by decide) (by decide) "Q1" "T1" 2
  refine h.mpr ⟨['T', 'A', 'Y', 'J'], by decide,
    (mem_match_peptoprot_find _ _ _ _ _).mpr
      ⟨['M', 'K', 'T', 'A', 'Y', 'J', 'A', 'K', 'Q'], by decide, by decide,
        by decide⟩⟩

/-- **C7.**  Every match emitted by the wildcard engine has at least one
wildcard symbol inside its window: for some `i` in
`[pos, pos + len(qseq))`, the normalized target sequence has a wildcard at
`i` (hence no wildcard-free window the exact engine already reports is ever
re-reported by this engine). -/
theorem C7_wildcard_inside_window (tdb qdb : SequenceDB) (W : List Char)
    (m : Match) (hm : m ∈ (run_wildcard_match tdb qdb W).matchList) :
    ∃ tseq qseq, (m.target_id, tseq) ∈ tdb.ids.zip tdb.ambiguous_il_sequences ∧
      (m.query_id, qseq) ∈ qdb.ids.zip qdb.ambiguous_il_sequences ∧
      ∃ i, m.position ≤ i ∧ i < m.position + qseq.length ∧ tseq.getD i ' ' ∈ W := by
  obtain ⟨qid, tid, pos⟩ := m
  rw [mem_run_wildcard_match] at hm
  obtain ⟨tseq, ht, qseq, hq, hlen, ⟨w, h1, h2, h3⟩, hmatch⟩ := hm
  exact ⟨tseq, qseq, ht, hq, w, h1, h2, h3⟩

/-- **C7, witness**: target `AXC`, query `ABC`, wildcards `{X}`; the
emitted match at offset 0 has the wildcard `X` inside its window. -/
theorem C7_witness :
    Match.mk "Q1" "T1" 0 ∈ (run_wildcard_match
      ⟨["T1"], [['A', 'X', 'C']], [['A', 'X', 'C']], ["t"]⟩
      ⟨["Q1"], [['A', 'B', 'C']], [['A', 'B', 'C']], ["q"]⟩ ['X']).matchList ∧
    ∃ tseq qseq,
      ("T1", tseq) ∈ (["T1"].zip [['A', 'X', 'C']]) ∧
      ("Q1", qseq) ∈ (["Q1"].zip [['A', 'B', 'C']]) ∧
      ∃ i, 0 ≤ i ∧ i < 0 + qseq.length ∧ tseq.getD i ' ' ∈ ['X'] := by
  refine ⟨by decide, ?_⟩
  exact C7_wildcard_inside_window
    ⟨["T1"], [['A', 'X', 'C']], [['A', 'X', 'C']], ["t"]⟩
    ⟨["Q1"], [['A', 'B', 'C']], [['A', 'B', 'C']], ["q"]⟩ ['X']
    ⟨"Q1", "T1", 0⟩ (by decide)

/-- **C8.**  `SequenceDB` construction fails exactly when the four parallel
arrays do not all have one common length; on success all four lengths agree
and `size` equals that common length. -/
theorem C8_sequencedb_length_invariant :
    ∀ (ids : List String) (sequences ambiguous : List (List Char))
      (accessions : List String),
      ((∃ e, mkSequenceDB ids sequences ambiguous accessions = .error e) ↔
        ¬ (ids.length = accessions.length ∧
           accessions.length = ambiguous.length ∧
           ambiguous.length = sequences.length)) ∧
      (∀ db, mkSequenceDB ids sequences ambiguous accessions = .ok db →
        db.ids.length = db.accessions.length ∧
        db.accessions.length = db.ambiguous_il_sequences.length ∧
        db.ambiguous_il_sequences.length = db.sequences.length ∧
        db.size = db.ids.length) := by
  intro ids seqs amb accs
  unfold mkSequenceDB
  by_cases hc : ids.length = accs.length ∧ accs.length = amb.length ∧
      amb.length = seqs.length
  · rw [if_pos hc]
    constructor
    · constructor
      · rintro ⟨e, he⟩
        simp at he
      · intro h
        exact absurd hc h
    · rintro db hdb
      simp only [Except.ok.injEq] at hdb
      subst hdb
      refine ⟨hc.1, hc.2.1, hc.2.2, ?_⟩
      unfold SequenceDB.size
      simp only
      omega
  · rw [if_neg hc]
    constructor
    · constructor
      · intro _
        exact hc
      · intro _
        exact ⟨_, rfl⟩
    · rintro db hdb
      simp at hdb

/-- **C8, witness**: a successful construction with all four arrays of
length 1: `size` equals the common length. -/
theorem C8_witness :
    mkSequenceDB ["T000001"] [['A']] [['A']] ["P1"] =
      .ok ⟨["T000001"], [['A']], [['A']], ["P1"]⟩ ∧
    (⟨["T000001"], [['A']], [['A']], ["P1"]⟩ : SequenceDB).size =
      (["T000001"] : List String).length := by
  have h := (C8_sequencedb_length_invariant ["T000001"] [['A']] [['A']] ["P1"]).2
    ⟨["T000001"], [['A']], [['A']], ["P1"]⟩ (by rfl)
  exact ⟨by rfl, h.2.2.2⟩

/-- **C9.**  `build_database` generates the internal IDs deterministically
in input order, each of the form prefix (`T` for targets, `Q` for queries)
followed by a zero-padded ordinal, pairwise distinct; and every
`ambiguous_il_sequence` is the original sequence with every `I` and every
`L` replaced by `J`. -/
theorem C9_build_database_ids_and_normalization
    (inputs : List (String × List Char)) (role : SequenceRole) :
    (build_database inputs role).ids = generate_ids (rolePrefix role) inputs.length ∧
    (∀ i, i < inputs.length →
      (build_database inputs role).ids.getD i "" =
        rolePrefix role ++ String.mk (zeroPad (max 6 (decRepr inputs.length).length)
          (decRepr (i + 1)))) ∧
    (build_database inputs role).ids.Nodup ∧
    (build_database inputs role).ambiguous_il_sequences =
      inputs.map (fun obj => ilCollapse obj.2) ∧
    (build_database inputs role).sequences = inputs.map (fun obj => obj.2) ∧
    (build_database inputs role).accessions = inputs.map (fun obj => obj.1) := by
  have hids : (build_database inputs role).ids =
      generate_ids (rolePrefix role) inputs.length := by
    simp [build_database]
  refine ⟨hids, ?_, ?_, ?_, by simp [build_database], by simp [build_database]⟩
  · intro i hi
    rw [hids]
    unfold generate_ids
    have hlen : i < ((List.range inputs.length).map
        (fun i => rolePrefix role ++ String.mk
          (zeroPad (max 6 (decRepr inputs.length).length) (decRepr (i + 1))))).length := by
      simpa using hi
    rw [List.getD_eq_getElem _ _ hlen]
    simp
  · rw [hids]
    exact generate_ids_nodup _ _
  · simp only [build_database]
    exact List.map_congr_left (fun obj _ => il_to_j_eq_ilCollapse obj.2)

/-- **C9, witness**: two query records, normalized by the `I/L → J`
substitution, with the first generated ID in the padded form. -/
theorem C9_witness :
    (build_database [("accA", ['I', 'L', 'A']), ("accB", ['M'])]
      .query).ids.getD 0 "" =
      rolePrefix .query ++ String.mk (zeroPad (max 6 (decRepr 2).length) (decRepr 1)) ∧
    (build_database [("accA", ['I', 'L', 'A']), ("accB", ['M'])]
      .query).ambiguous_il_sequences = [['J', 'J', 'A'], ['M']] := by
  have h := C9_build_database_ids_and_normalization
    [("accA", ['I', 'L', 'A']), ("accB", ['M'])] .query
  refine ⟨h.2.1 0 (by decide), ?_⟩
  rw [h.2.2.2.1]
  decide

/-- **C10.**  `il_to_j` is length-preserving and idempotent; consequently a
match window `[pos, pos + k)` valid in the normalized sequence is a valid
offset range in the original sequence. -/
theorem C10_il_to_j_length_idempotent (s : List Char) :
    (il_to_j s).length = s.length ∧
    il_to_j (il_to_j s) = il_to_j s ∧
    ∀ pos k : Nat, pos + k ≤ (il_to_j s).length → pos + k ≤ s.length := by
  have hlen : (il_to_j s).length = s.length := by
    simp [il_to_j]
  refine ⟨hlen, ?_, fun pos k h => by rw [hlen] at h; exact h⟩
  rw [il_to_j_eq_ilCollapse s, il_to_j_eq_ilCollapse (ilCollapse s)]
  unfold ilCollapse
  rw [List.map_map]
  refine List.map_congr_left ?_
  intro c _
  by_cases h : c = 'I' ∨ c = 'L'
  · simp [Function.comp, h]
  · simp [Function.comp, h]

/-- **C10, witness**: `MIL` normalizes to `MJJ` of the same length, and the
window `[1, 3)` carries over to the original sequence. -/
theorem C10_witness :
    (il_to_j ['M', 'I', 'L']).length = 3 ∧
    1 + 2 ≤ (['M', 'I', 'L'] : List Char).length := by
  have h := C10_il_to_j_length_idempotent ['M', 'I', 'L']
  exact ⟨by rw [h.1]; rfl, h.2.2 1 2 (by decide)⟩

end MicroTPCT
